import Mathlib

/-!
Verification of the OnlyOffice connector command-service client
(`src/tdrive/connectors/onlyoffice-connector/src/services/onlyoffice.service.ts`):
the error-code contract of `post()`, the label resolver `ErrorCodeFromValue`,
the polled licence cache, and the forgotten-document reconciler
`processForgotten` with its Fisher-Yates shuffled traversal.

Fallible asynchronous calls are embedded as `Except`-returning functions;
the server's behaviour during one reconciliation pass is an explicit
environment record, and the calls the client issues are collected in a trace.
-/

namespace OnlyOffice

/-- The `ErrorCode` enum of the command service: the numeric values
`SUCCESS = 0 .. INVALID_TOKEN = 6`, as (name, value) pairs in declaration
order. -/
def errorCodeTable : List (String × Int) :=
  [("SUCCESS", 0),
   ("KEY_MISSING_OR_DOC_NOT_FOUND", 1),
   ("INVALID_CALLBACK_URL", 2),
   ("INTERNAL_SERVER_ERROR", 3),
   ("FORCE_SAVE_BUT_NO_CHANGES_TO_APPLY", 4),
   ("COMMAND_NOT_CORRECT", 5),
   ("INVALID_TOKEN", 6)]

/-- The set of integer values of the `ErrorCode` enum. -/
def knownErrorCodeValues : List Int := errorCodeTable.map (fun p => p.2)

/-- Modelled from the spec: `Utils.getKeyForValueSafe` (the file
`src/utils` is not part of the sources) — a best-effort reverse lookup of
an enum value that "falls back to a generic unrecognized-code description
rather than failing the lookup itself".  Total by construction: it always
returns a `String`, never a failure. -/
def getKeyForValueSafe (value : Int) (table : List (String × Int)) (enumName : String) : String :=
  match table.find? (fun p => p.2 == value) with
  | some p => p.1
  | none => "unrecognised value " ++ toString value ++ " of enum " ++ enumName

/-- The fallback description `getKeyForValueSafe` produces for a value
absent from the enum. -/
def fallbackLabel (value : Int) (enumName : String) : String :=
  "unrecognised value " ++ toString value ++ " of enum " ++ enumName

/-- `ErrorCodeFromValue` from the source: resolve a numeric error code to
the name of the `ErrorCode` enum member, or a descriptive fallback. -/
def ErrorCodeFromValue (value : Int) : String :=
  getKeyForValueSafe value errorCodeTable "OnlyOffice.ErrorCode"

/-- `CommandError` from the source: a typed failure carrying the error
code and a message built from the resolved label, the original request and
the raw response. -/
structure CommandError where
  errorCode : Int
  message : String
deriving Repr, DecidableEq

/-- The `CommandError` constructor: its message interpolates
`ErrorCodeFromValue errorCode`, the code itself, the serialized request
and the serialized response. -/
def mkCommandError (errorCode : Int) (req res : String) : CommandError :=
  { errorCode := errorCode,
    message := "OnlyOffice command service error " ++ ErrorCodeFromValue errorCode
      ++ " (" ++ toString errorCode ++ "): Requested " ++ req ++ " got " ++ res }

/-- A decoded command-service response: the universal `error` field plus
the command-specific success fields (`data`), and its raw serialized form
as used in diagnostics. -/
structure CommandResponse (α : Type) where
  error : Int
  data : α
  raw : String
deriving Repr, DecidableEq

/-- `BaseRequest.post` from the source: given the response `postUnsafe`
decoded, return it whole when `error = SUCCESS (0)`, otherwise throw a
`CommandError` built from the code, the request and the response. -/
def post {α : Type} (req : String) (resp : CommandResponse α) :
    Except CommandError (CommandResponse α) :=
  if resp.error = 0 then Except.ok resp
  else Except.error (mkCommandError resp.error req resp.raw)

/-- One call issued by the reconciler during a pass: the list fetch, a
per-key URL fetch (`getForgotten`), an invocation of the caller-supplied
processor, or a per-key delete (`deleteForgotten`). -/
inductive Event where
  | listFetch : Event
  | urlFetch : String → Event
  | procCall : String → String → Event
  | deleteCall : String → Event
deriving Repr, DecidableEq

/-- The server's behaviour during one reconciliation pass: the outcome of
each awaited call.  An `Except.error` stands for either a transport
failure or a thrown `CommandError`; both propagate identically through
the `async` methods. -/
structure Env (ε : Type) where
  getForgottenList : Except ε (List String)
  getForgotten : String → Except ε String
  deleteForgotten : String → Except ε String

/-- Modelled from the spec: one step of `Utils.fisherYattesShuffleInPlace`
(the file `src/utils` is not part of the sources; the spec prescribes a
uniform Fisher-Yates shuffle, the "exact algorithm choice is an
implementation detail").  Pick the element at index `j` of `x :: rest`
out to the front, leaving `x` in that element's place. -/
def pickOut (j : Nat) (x : α) (rest : List α) : α × List α :=
  if j = 0 then (x, rest) else (rest.getD (j - 1) x, rest.set (j - 1) x)

/-- Modelled from the spec: `Utils.fisherYattesShuffleInPlace`, seeded by
the list of random draws `seed` (one draw per step, reduced modulo the
number of not-yet-placed elements, so every seed is meaningful).  `fuel`
is the structural recursion measure; it is set to the list length. -/
def fyShuffleAux : Nat → List Nat → List α → List α
  | 0, _, l => l
  | _ + 1, _, [] => []
  | fuel + 1, seed, x :: rest =>
    let p := pickOut (seed.headD 0 % (rest.length + 1)) x rest
    p.1 :: fyShuffleAux fuel seed.tail p.2

/-- Modelled from the spec: the seeded Fisher-Yates shuffle of a list. -/
def fisherYattesShuffleInPlace (seed : List Nat) (l : List α) : List α :=
  fyShuffleAux l.length seed l

/-- The per-key loop of `processForgotten`: for each key in order, fetch
its URL, invoke the processor, and when it returns `true` delete the key
and increment the count.  Returns the trace of issued calls and either
the final count or the first error, at which the loop stops. -/
def processLoop (env : Env ε) (processor : String → String → Bool) :
    List String → Nat → List Event × Except ε Nat
  | [], deleted => ([], Except.ok deleted)
  | key :: rest, deleted =>
    match env.getForgotten key with
    | Except.error e => ([Event.urlFetch key], Except.error e)
    | Except.ok url =>
      if processor key url then
        match env.deleteForgotten key with
        | Except.error e =>
          ([Event.urlFetch key, Event.procCall key url, Event.deleteCall key], Except.error e)
        | Except.ok _ =>
          let r := processLoop env processor rest (deleted + 1)
          (Event.urlFetch key :: Event.procCall key url :: Event.deleteCall key :: r.1, r.2)
      else
        let r := processLoop env processor rest deleted
        (Event.urlFetch key :: Event.procCall key url :: r.1, r.2)

/-- `OnlyOfficeService.processForgotten` from the source: fetch the
forgotten list, return 0 at once when it is empty, otherwise shuffle it
and run the per-key loop.  The first component is the trace of issued
calls, the second the returned count or the propagated failure. -/
def processForgotten (env : Env ε) (seed : List Nat)
    (processor : String → String → Bool) : List Event × Except ε Nat :=
  match env.getForgottenList with
  | Except.error e => ([Event.listFetch], Except.error e)
  | Except.ok keys =>
    if keys.length = 0 then ([Event.listFetch], Except.ok 0)
    else
      let r := processLoop env processor (fisherYattesShuffleInPlace seed keys) 0
      (Event.listFetch :: r.1, r.2)

/-- The keys whose delete call appears in a trace, in order. -/
def deletedKeys (trace : List Event) : List String :=
  trace.filterMap (fun ev =>
    match ev with
    | Event.deleteCall k => some k
    | _ => none)

/-- The calls one key gives rise to when every server call succeeds:
its URL fetch, its processor invocation, and its delete call exactly when
the processor returned `true`. -/
def itemTrace (url : String → String) (processor : String → String → Bool)
    (k : String) : List Event :=
  Event.urlFetch k :: Event.procCall k (url k) ::
    (if processor k (url k) then [Event.deleteCall k] else [])

/-- The full trace of the per-key loop over `l` when every server call
succeeds. -/
def okTrace (url : String → String) (processor : String → String → Bool)
    (l : List String) : List Event :=
  l.flatMap (itemTrace url processor)

/-- Modelled from the spec: `PolledThingieValue` (the file
`src/lib/polled-thingie-value` is not part of the sources) — the cached
slot of the background-refreshed value: the most recently successfully
produced value, or `none` before any success. -/
structure PolledThingieValue (τ : Type) where
  lastValue : Option τ
deriving Repr, DecidableEq

/-- Modelled from the spec: the state at construction, before any refresh
has succeeded. -/
def PolledThingieValue.initial (τ : Type) : PolledThingieValue τ := ⟨none⟩

/-- Modelled from the spec: one refresh cycle applied to the cached slot.
On success the produced value replaces the slot; on failure the previous
value (if any) is retained, the failure being only logged. -/
def PolledThingieValue.refresh (s : PolledThingieValue τ) (outcome : Except ε τ) :
    PolledThingieValue τ :=
  match outcome with
  | Except.ok v => ⟨some v⟩
  | Except.error _ => s

/-- Modelled from the spec: `latest()` — the non-blocking read of the
cached slot. -/
def PolledThingieValue.latest (s : PolledThingieValue τ) : Option τ := s.lastValue

/-- The cached slot after a finite history of refresh outcomes, starting
from the initial (absent) state. -/
def PolledThingieValue.run (outcomes : List (Except ε τ)) : PolledThingieValue τ :=
  outcomes.foldl PolledThingieValue.refresh (PolledThingieValue.initial τ)

/-- `OnlyOfficeService.getLatestLicence` from the source: returns
`this.poller.latest()`. -/
def getLatestLicence (poller : PolledThingieValue τ) : Option τ :=
  poller.latest

/-- A canonical Fisher-Yates seed for a list of length `n`: one draw per
step, the draw for step `i` already reduced below the number `n - i` of
not-yet-placed elements. -/
def seedOK (seed : List Nat) (n : Nat) : Prop :=
  seed.length = n ∧ ∀ i ∈ List.range n, seed.getD i 0 < n - i

/-- A concrete healthy server for evaluation: three forgotten keys, every
URL fetch and delete succeeding. -/
def demoEnv : Env Unit :=
  ⟨Except.ok ["a", "b", "c"], fun k => Except.ok ("url-" ++ k), fun k => Except.ok k⟩

/-- The URL each key resolves to under `demoEnv`. -/
def demoUrl (k : String) : String := "url-" ++ k

/-- A concrete processor accepting every key but `"b"`. -/
def demoProc (k : String) (_u : String) : Bool := k != "b"

/-- A concrete server whose forgotten-list fetch fails. -/
def envListFail : Env Unit :=
  ⟨Except.error (), fun k => Except.ok k, fun k => Except.ok k⟩

/-- A concrete server with an empty forgotten list. -/
def envEmptyList : Env Unit :=
  ⟨Except.ok [], fun k => Except.ok k, fun k => Except.ok k⟩

/-- A concrete server with keys `"a"`, `"b"` whose delete call fails on
`"b"` only. -/
def envDelFail : Env Unit :=
  ⟨Except.ok ["a", "b"], fun k => Except.ok k,
   fun k => if k = "b" then Except.error () else Except.ok k⟩

/-- A concrete healthy server whose forgotten list holds the same key
twice. -/
def envDup : Env Unit :=
  ⟨Except.ok ["a", "a"], fun k => Except.ok k, fun k => Except.ok k⟩

end OnlyOffice

namespace OnlyOffice

/-- **C1** — For every command request and every response whose error field
is a known `ErrorCode`, `post()` returns the success payload if and only if
the error code is `SUCCESS` (0); for every other code it fails with a typed
`CommandError` carrying exactly that error code. -/
theorem post_success_iff_zero {α : Type} (req : String) (resp : CommandResponse α)
    (hknown : resp.error ∈ knownErrorCodeValues) :
    (post req resp = Except.ok resp ↔ resp.error = 0) ∧
    (resp.error ≠ 0 →
      post req resp = Except.error (mkCommandError resp.error req resp.raw) ∧
      (mkCommandError resp.error req resp.raw).errorCode = resp.error) := by
  constructor
  · constructor
    · intro h
      by_contra hne
      rw [post, if_neg hne] at h
      exact Except.noConfusion h
    · intro h
      simp [post, h]
  · intro hne
    refine ⟨?_, rfl⟩
    simp [post, hne]

/-- Witness for C1 at a concrete error response (`error = 6`,
`INVALID_TOKEN`). -/
theorem post_success_iff_zero_witness :
    ((6 : Int) ∈ knownErrorCodeValues) ∧
    (post "forcesave" ⟨6, "", "resp"⟩ = Except.ok ⟨6, "", "resp"⟩ ↔ (6 : Int) = 0) ∧
    ((6 : Int) ≠ 0 →
      post "forcesave" (⟨6, "", "resp"⟩ : CommandResponse String)
        = Except.error (mkCommandError 6 "forcesave" "resp") ∧
      (mkCommandError 6 "forcesave" "resp").errorCode = 6) :=
  ⟨by decide, post_success_iff_zero "forcesave" ⟨6, "", "resp"⟩ (by decide)⟩

/-- **C8** — For every integer error code not in the `ErrorCode`
enumeration, the label resolver `ErrorCodeFromValue` returns the fallback
descriptive string (it is total, so constructing a `CommandError` never
fails on an unrecognized code, and the constructed error still carries the
code). -/
theorem errorCodeFromValue_fallback (v : Int) (hv : v ∉ knownErrorCodeValues) :
    ErrorCodeFromValue v = fallbackLabel v "OnlyOffice.ErrorCode" ∧
    ∀ req res : String, (mkCommandError v req res).errorCode = v := by
  refine ⟨?_, fun _ _ => rfl⟩
  have hfind : errorCodeTable.find? (fun p => p.2 == v) = none := by
    rw [List.find?_eq_none]
    intro p hp
    simp only [beq_iff_eq]
    intro hpv
    exact hv (by
      simp only [knownErrorCodeValues, List.mem_map]
      exact ⟨p, hp, hpv⟩)
  simp [ErrorCodeFromValue, getKeyForValueSafe, hfind, fallbackLabel]

/-- Witness for C8 at the concrete unrecognized code 42. -/
theorem errorCodeFromValue_fallback_witness :
    ((42 : Int) ∉ knownErrorCodeValues) ∧
    (ErrorCodeFromValue 42 = fallbackLabel 42 "OnlyOffice.ErrorCode" ∧
      ∀ req res : String, (mkCommandError 42 req res).errorCode = 42) :=
  ⟨by decide, errorCodeFromValue_fallback 42 (by decide)⟩

/-- Prepending `x` to `l` is, up to permutation, picking the element at
index `i` of `l` to the front and putting `x` in its place. -/
theorem perm_cons_getD_set (x : α) :
    ∀ (l : List α) (i : Nat), i < l.length →
      List.Perm (x :: l) (l.getD i x :: l.set i x)
  | [], i, h => absurd h (by simp)
  | a :: t, 0, _ => by
    simpa using List.Perm.swap a x t
  | a :: t, i + 1, h => by
    have ht : i < t.length := by simpa using h
    have ih := perm_cons_getD_set x t i ht
    have step1 : List.Perm (x :: a :: t) (a :: x :: t) := List.Perm.swap a x t
    have step2 : List.Perm (a :: x :: t) (a :: t.getD i x :: t.set i x) :=
      List.Perm.cons a ih
    have step3 : List.Perm (a :: t.getD i x :: t.set i x)
        (t.getD i x :: a :: t.set i x) := List.Perm.swap (t.getD i x) a (t.set i x)
    simpa using (step1.trans step2).trans step3

/-- `pickOut` with an in-range index is a permutation step. -/
theorem pickOut_perm (x : α) (rest : List α) (j : Nat) (hj : j < rest.length + 1) :
    List.Perm (x :: rest) ((pickOut j x rest).1 :: (pickOut j x rest).2) := by
  unfold pickOut
  by_cases h0 : j = 0
  · simp [h0]
  · have hj1 : j - 1 < rest.length := by omega
    simpa [h0] using perm_cons_getD_set x rest (j - 1) hj1

/-- The seeded Fisher-Yates shuffle permutes its input, for any fuel and
seed. -/
theorem fyShuffleAux_perm :
    ∀ (fuel : Nat) (seed : List Nat) (l : List α),
      List.Perm (fyShuffleAux fuel seed l) l
  | 0, _, l => List.Perm.refl l
  | _ + 1, _, [] => List.Perm.refl []
  | fuel + 1, seed, x :: rest => by
    have hp := pickOut_perm x rest (seed.headD 0 % (rest.length + 1))
      (Nat.mod_lt _ (Nat.succ_pos _))
    have ih := fyShuffleAux_perm fuel seed.tail
      (pickOut (seed.headD 0 % (rest.length + 1)) x rest).2
    show List.Perm
      ((pickOut (seed.headD 0 % (rest.length + 1)) x rest).1 ::
        fyShuffleAux fuel seed.tail
          (pickOut (seed.headD 0 % (rest.length + 1)) x rest).2)
      (x :: rest)
    exact (List.Perm.cons _ ih).trans hp.symm

/-- The shuffle produces a permutation of the input list. -/
theorem fisherYattes_perm (seed : List Nat) (l : List α) :
    List.Perm (fisherYattesShuffleInPlace seed l) l :=
  fyShuffleAux_perm l.length seed l

/-- The shuffle preserves the length of the list. -/
theorem fisherYattes_length (seed : List Nat) (l : List α) :
    (fisherYattesShuffleInPlace seed l).length = l.length :=
  (fisherYattes_perm seed l).length_eq

/-- Unfolding: the canonical trace of `k :: l`. -/
theorem okTrace_cons (url : String → String) (processor : String → String → Bool)
    (k : String) (l : List String) :
    okTrace url processor (k :: l) =
      itemTrace url processor k ++ okTrace url processor l := by
  simp [okTrace]

/-- Unfolding: the per-key loop on an empty list. -/
theorem processLoop_nil (env : Env ε) (processor : String → String → Bool)
    (d : Nat) : processLoop env processor [] d = ([], Except.ok d) := rfl

/-- Unfolding: the per-key loop when the head key's URL fetch fails. -/
theorem processLoop_cons_urlfail (env : Env ε) (processor : String → String → Bool)
    (key : String) (rest : List String) (d : Nat) (e : ε)
    (hg : env.getForgotten key = Except.error e) :
    processLoop env processor (key :: rest) d =
      ([Event.urlFetch key], Except.error e) := by
  simp [processLoop, hg]

/-- Unfolding: the per-key loop when the head key's URL fetch succeeds,
the processor accepts, and its delete succeeds. -/
theorem processLoop_cons_true (env : Env ε) (processor : String → String → Bool)
    (key : String) (rest : List String) (d : Nat) (u r : String)
    (hg : env.getForgotten key = Except.ok u)
    (hp : processor key u = true)
    (hd : env.deleteForgotten key = Except.ok r) :
    processLoop env processor (key :: rest) d =
      (Event.urlFetch key :: Event.procCall key u :: Event.deleteCall key ::
        (processLoop env processor rest (d + 1)).1,
       (processLoop env processor rest (d + 1)).2) := by
  simp [processLoop, hg, hp, hd]

/-- Unfolding: the per-key loop when the head key's URL fetch succeeds,
the processor accepts, but its delete fails. -/
theorem processLoop_cons_delfail (env : Env ε) (processor : String → String → Bool)
    (key : String) (rest : List String) (d : Nat) (u : String) (e : ε)
    (hg : env.getForgotten key = Except.ok u)
    (hp : processor key u = true)
    (hd : env.deleteForgotten key = Except.error e) :
    processLoop env processor (key :: rest) d =
      ([Event.urlFetch key, Event.procCall key u, Event.deleteCall key],
       Except.error e) := by
  simp [processLoop, hg, hp, hd]

/-- Unfolding: the per-key loop when the head key's URL fetch succeeds and
the processor declines. -/
theorem processLoop_cons_false (env : Env ε) (processor : String → String → Bool)
    (key : String) (rest : List String) (d : Nat) (u : String)
    (hg : env.getForgotten key = Except.ok u)
    (hp : processor key u = false) :
    processLoop env processor (key :: rest) d =
      (Event.urlFetch key :: Event.procCall key u ::
        (processLoop env processor rest d).1,
       (processLoop env processor rest d).2) := by
  simp [processLoop, hg, hp]

/-- When every server call over `l` succeeds, the per-key loop issues the
canonical trace and returns the starting count plus the number of keys the
processor accepted. -/
theorem processLoop_ok (env : Env ε) (processor : String → String → Bool)
    (url : String → String) :
    ∀ (l : List String) (d : Nat),
      (∀ k ∈ l, env.getForgotten k = Except.ok (url k)) →
      (∀ k ∈ l, env.deleteForgotten k = Except.ok k) →
      processLoop env processor l d =
        (okTrace url processor l,
         Except.ok (d + (l.filter (fun k => processor k (url k))).length))
  | [], d, _, _ => by simp [processLoop_nil, okTrace]
  | key :: rest, d, hget, hdel => by
    have hgk : env.getForgotten key = Except.ok (url key) := hget key (by simp)
    have hdk : env.deleteForgotten key = Except.ok key := hdel key (by simp)
    have ihT : ∀ d', processLoop env processor rest d' =
        (okTrace url processor rest,
         Except.ok (d' + (rest.filter (fun k => processor k (url k))).length)) :=
      fun d' => processLoop_ok env processor url rest d'
        (fun k hk => hget k (List.mem_cons_of_mem _ hk))
        (fun k hk => hdel k (List.mem_cons_of_mem _ hk))
    by_cases hp : processor key (url key)
    · rw [processLoop_cons_true env processor key rest d (url key) key hgk hp hdk,
        ihT (d + 1), okTrace_cons]
      simp only [itemTrace, hp, if_true, List.filter_cons]
      refine congrArg₂ Prod.mk (by simp) ?_
      have : d + 1 + (rest.filter (fun k => processor k (url k))).length =
          d + (key :: rest.filter (fun k => processor k (url k))).length := by
        simp only [List.length_cons]
        omega
      rw [this]
    · have hp' : processor key (url key) = false := by
        simpa using hp
      rw [processLoop_cons_false env processor key rest d (url key) hgk hp',
        ihT d, okTrace_cons]
      simp only [itemTrace, hp', if_false, List.filter_cons]
      refine congrArg₂ Prod.mk (by simp) (by simp [hp'])

/-- When every server call over the prefix `l₁` succeeds, the per-key loop
on `l₁ ++ l₂` issues the canonical trace for `l₁` and then continues on
`l₂` with the count advanced by the keys of `l₁` the processor accepted. -/
theorem processLoop_append_ok (env : Env ε) (processor : String → String → Bool)
    (url : String → String) :
    ∀ (l₁ l₂ : List String) (d : Nat),
      (∀ k ∈ l₁, env.getForgotten k = Except.ok (url k)) →
      (∀ k ∈ l₁, env.deleteForgotten k = Except.ok k) →
      processLoop env processor (l₁ ++ l₂) d =
        (okTrace url processor l₁ ++
          (processLoop env processor l₂
            (d + (l₁.filter (fun k => processor k (url k))).length)).1,
         (processLoop env processor l₂
            (d + (l₁.filter (fun k => processor k (url k))).length)).2)
  | [], l₂, d, _, _ => by simp [okTrace]
  | key :: rest, l₂, d, hget, hdel => by
    have hgk : env.getForgotten key = Except.ok (url key) := hget key (by simp)
    have hdk : env.deleteForgotten key = Except.ok key := hdel key (by simp)
    have ih := processLoop_append_ok env processor url rest l₂
    by_cases hp : processor key (url key)
    · have ih1 := ih (d + 1)
        (fun k hk => hget k (List.mem_cons_of_mem _ hk))
        (fun k hk => hdel k (List.mem_cons_of_mem _ hk))
      rw [List.cons_append,
        processLoop_cons_true env processor key (rest ++ l₂) d (url key) key hgk hp hdk,
        ih1, okTrace_cons]
      simp only [itemTrace, hp, if_true, List.filter_cons]
      have harith : d + 1 + (rest.filter (fun k => processor k (url k))).length =
          d + (key :: rest.filter (fun k => processor k (url k))).length := by
        simp only [List.length_cons]
        omega
      rw [harith]
      refine congrArg₂ Prod.mk (by simp) rfl
    · have hp' : processor key (url key) = false := by
        simpa using hp
      have ih1 := ih d
        (fun k hk => hget k (List.mem_cons_of_mem _ hk))
        (fun k hk => hdel k (List.mem_cons_of_mem _ hk))
      rw [List.cons_append,
        processLoop_cons_false env processor key (rest ++ l₂) d (url key) hgk hp',
        ih1, okTrace_cons]
      simp only [itemTrace, hp', if_false, List.filter_cons]
      refine congrArg₂ Prod.mk (by simp) (by simp [hp'])

/-- The delete calls of the canonical trace over `l` are exactly the keys
of `l` the processor accepted, in order. -/
theorem deletedKeys_okTrace (url : String → String)
    (processor : String → String → Bool) :
    ∀ l : List String,
      deletedKeys (okTrace url processor l) =
        l.filter (fun k => processor k (url k))
  | [] => by simp [deletedKeys, okTrace]
  | key :: rest => by
    have ih := deletedKeys_okTrace url processor rest
    by_cases hp : processor key (url key)
    · rw [okTrace_cons]
      simp only [itemTrace, hp, if_true, List.filter_cons, deletedKeys,
        List.filterMap_append, List.filterMap_cons]
      simp only [deletedKeys] at ih
      simp [ih, hp]
    · have hp' : processor key (url key) = false := by simpa using hp
      rw [okTrace_cons]
      simp only [itemTrace, hp', if_false, List.filter_cons, deletedKeys,
        List.filterMap_append, List.filterMap_cons]
      simp only [deletedKeys] at ih
      simp [ih, hp']

/-- Unfolding: `processForgotten` when the list fetch fails. -/
theorem processForgotten_listfail (env : Env ε) (seed : List Nat)
    (processor : String → String → Bool) (e : ε)
    (h : env.getForgottenList = Except.error e) :
    processForgotten env seed processor = ([Event.listFetch], Except.error e) := by
  simp [processForgotten, h]

/-- Unfolding: `processForgotten` on a successfully fetched nonempty
list. -/
theorem processForgotten_unfold (env : Env ε) (seed : List Nat)
    (processor : String → String → Bool) (keys : List String)
    (hl : env.getForgottenList = Except.ok keys) (hne : keys ≠ []) :
    processForgotten env seed processor =
      (Event.listFetch ::
        (processLoop env processor (fisherYattesShuffleInPlace seed keys) 0).1,
       (processLoop env processor (fisherYattesShuffleInPlace seed keys) 0).2) := by
  have hlen : ¬keys.length = 0 := by simpa using hne
  simp [processForgotten, hl, hlen]

/-- The delete calls of a trace are unchanged by a leading list fetch and
distribute over concatenation. -/
theorem deletedKeys_cons_append (t₁ t₂ : List Event) :
    deletedKeys (Event.listFetch :: (t₁ ++ t₂)) = deletedKeys t₁ ++ deletedKeys t₂ := by
  simp [deletedKeys]

/-- **C5** — When the fetched forgotten-document list is empty,
`processForgotten` returns 0 immediately and issues no further server
calls: its whole trace is the single list fetch, so there are no URL
fetches, no processor invocations and no deletions. -/
theorem processForgotten_empty (env : Env ε) (seed : List Nat)
    (processor : String → String → Bool)
    (h : env.getForgottenList = Except.ok []) :
    processForgotten env seed processor = ([Event.listFetch], Except.ok 0) ∧
    ∀ ev ∈ (processForgotten env seed processor).1, ev = Event.listFetch := by
  have hmain : processForgotten env seed processor = ([Event.listFetch], Except.ok 0) := by
    simp [processForgotten, h]
  refine ⟨hmain, ?_⟩
  rw [hmain]
  intro ev hev
  simpa using hev

/-- Witness for C5 on the concrete empty-list server. -/
theorem processForgotten_empty_witness :
    envEmptyList.getForgottenList = Except.ok [] ∧
    (processForgotten envEmptyList [] demoProc = ([Event.listFetch], Except.ok 0) ∧
      ∀ ev ∈ (processForgotten envEmptyList [] demoProc).1, ev = Event.listFetch) :=
  ⟨rfl, processForgotten_empty envEmptyList [] demoProc rfl⟩

/-- **C2** — When every server call succeeds, `processForgotten` issues a
delete call for exactly those keys (in shuffled order) for which the
processor returned `true`, none for the keys where it returned `false`,
and returns the number of keys deleted; an always-`true` processor yields
the list length and an always-`false` processor yields 0 with no delete
calls. -/
theorem processForgotten_deletes (env : Env ε) (seed : List Nat)
    (processor : String → String → Bool) (keys : List String) (url : String → String)
    (hl : env.getForgottenList = Except.ok keys)
    (hget : ∀ k, env.getForgotten k = Except.ok (url k))
    (hdel : ∀ k, env.deleteForgotten k = Except.ok k) :
    deletedKeys (processForgotten env seed processor).1 =
      (fisherYattesShuffleInPlace seed keys).filter (fun k => processor k (url k)) ∧
    (processForgotten env seed processor).2 =
      Except.ok (((fisherYattesShuffleInPlace seed keys).filter
        (fun k => processor k (url k))).length) ∧
    ((∀ k u, processor k u = true) →
      (processForgotten env seed processor).2 = Except.ok keys.length) ∧
    ((∀ k u, processor k u = false) →
      (processForgotten env seed processor).2 = Except.ok 0 ∧
        deletedKeys (processForgotten env seed processor).1 = []) := by
  by_cases hkeys : keys = []
  · subst hkeys
    have h0 : processForgotten env seed processor = ([Event.listFetch], Except.ok 0) := by
      simp [processForgotten, hl]
    have hsh : fisherYattesShuffleInPlace seed ([] : List String) = [] := rfl
    refine ⟨?_, ?_, ?_, ?_⟩
    · rw [h0, hsh]
      simp [deletedKeys]
    · rw [h0, hsh]
      simp
    · intro _
      rw [h0]
      simp
    · intro _
      rw [h0]
      simp [deletedKeys]
  · have hloop := processLoop_ok env processor url
      (fisherYattesShuffleInPlace seed keys) 0 (fun k _ => hget k) (fun k _ => hdel k)
    have hmain := processForgotten_unfold env seed processor keys hl hkeys
    have htrace : (processForgotten env seed processor).1 =
        Event.listFetch :: okTrace url processor (fisherYattesShuffleInPlace seed keys) := by
      rw [hmain, hloop]
    have hres : (processForgotten env seed processor).2 =
        Except.ok (((fisherYattesShuffleInPlace seed keys).filter
          (fun k => processor k (url k))).length) := by
      rw [hmain, hloop]
      simp
    have hdels : deletedKeys (processForgotten env seed processor).1 =
        (fisherYattesShuffleInPlace seed keys).filter (fun k => processor k (url k)) := by
      rw [htrace]
      have : deletedKeys (Event.listFetch ::
          okTrace url processor (fisherYattesShuffleInPlace seed keys)) =
          deletedKeys (okTrace url processor (fisherYattesShuffleInPlace seed keys)) := by
        simp [deletedKeys]
      rw [this, deletedKeys_okTrace]
    refine ⟨hdels, hres, ?_, ?_⟩
    · intro hall
      rw [hres]
      have hfilter : (fisherYattesShuffleInPlace seed keys).filter
          (fun k => processor k (url k)) = fisherYattesShuffleInPlace seed keys := by
        apply List.filter_eq_self.2
        intro k _
        exact hall k (url k)
      rw [hfilter, fisherYattes_length]
    · intro hall
      have hfilter : (fisherYattesShuffleInPlace seed keys).filter
          (fun k => processor k (url k)) = [] := by
        apply List.filter_eq_nil_iff.2
        intro k _
        simp [hall k (url k)]
      rw [hres, hdels, hfilter]
      simp

/-- Witness for C2 on the concrete healthy server: keys `a`, `b`, `c`
with the identity shuffle, a processor rejecting exactly `b`: deletes are
exactly `a` and `c` and the returned count is 2. -/
theorem processForgotten_deletes_witness :
    demoEnv.getForgottenList = Except.ok ["a", "b", "c"] ∧
    (∀ k, demoEnv.getForgotten k = Except.ok (demoUrl k)) ∧
    (∀ k, demoEnv.deleteForgotten k = Except.ok k) ∧
    deletedKeys (processForgotten demoEnv [] demoProc).1 = ["a", "c"] ∧
    (processForgotten demoEnv [] demoProc).2 = Except.ok 2 := by
  have h := processForgotten_deletes demoEnv [] demoProc ["a", "b", "c"] demoUrl
    rfl (fun _ => rfl) (fun _ => rfl)
  refine ⟨rfl, fun _ => rfl, fun _ => rfl, ?_, ?_⟩
  · rw [h.1]
    decide
  · rw [h.2.1]
    exact congrArg Except.ok (by decide)

/-- **C3** — Any failure raised during `processForgotten` — fetching the
list, fetching a key's URL, or deleting a key — aborts the pass at once:
the result is that very failure (no count), and a list-fetch failure in
particular produces a trace with no further calls at all. -/
theorem processForgotten_failure (env : Env ε) (seed : List Nat)
    (processor : String → String → Bool) (e : ε) :
    (env.getForgottenList = Except.error e →
      processForgotten env seed processor = ([Event.listFetch], Except.error e)) ∧
    (∀ (keys : List String) (url : String → String) (l₁ : List String)
        (key : String) (l₂ : List String),
      env.getForgottenList = Except.ok keys →
      fisherYattesShuffleInPlace seed keys = l₁ ++ key :: l₂ →
      (∀ k ∈ l₁, env.getForgotten k = Except.ok (url k)) →
      (∀ k ∈ l₁, env.deleteForgotten k = Except.ok k) →
      ((env.getForgotten key = Except.error e →
          (processForgotten env seed processor).2 = Except.error e) ∧
       (∀ u, env.getForgotten key = Except.ok u → processor key u = true →
          env.deleteForgotten key = Except.error e →
          (processForgotten env seed processor).2 = Except.error e))) := by
  constructor
  · intro h
    exact processForgotten_listfail env seed processor e h
  · intro keys url l₁ key l₂ hl hshuf hget hdel
    have hne : keys ≠ [] := by
      intro hk
      subst hk
      have h0 : fisherYattesShuffleInPlace seed ([] : List String) = [] := rfl
      rw [h0] at hshuf
      exact List.noConfusion (List.append_eq_nil.1 hshuf.symm).2
    have hmain := processForgotten_unfold env seed processor keys hl hne
    have happ := processLoop_append_ok env processor url l₁ (key :: l₂) 0 hget hdel
    have hres : (processForgotten env seed processor).2 =
        (processLoop env processor (key :: l₂)
          (0 + (l₁.filter (fun k => processor k (url k))).length)).2 := by
      rw [hmain]
      simp only [hshuf, happ]
    constructor
    · intro hfail
      rw [hres, processLoop_cons_urlfail env processor key l₂ _ e hfail]
    · intro u hu hp hdfail
      rw [hres, processLoop_cons_delfail env processor key l₂ _ u e hu hp hdfail]

/-- Witness for C3: the list-fetch-failure branch on `envListFail` and the
delete-failure branch on `envDelFail` (keys `a`, `b`, delete failing on
`b`). -/
theorem processForgotten_failure_witness :
    envListFail.getForgottenList = Except.error () ∧
    processForgotten envListFail [] demoProc = ([Event.listFetch], Except.error ()) ∧
    envDelFail.deleteForgotten "b" = Except.error () ∧
    (processForgotten envDelFail [] (fun _ _ => true)).2 = Except.error () := by
  refine ⟨rfl, (processForgotten_failure envListFail [] demoProc ()).1 rfl, rfl, ?_⟩
  have h := ((processForgotten_failure envDelFail [] (fun _ _ => true) ()).2
    ["a", "b"] (fun k => k) ["a"] "b" [] rfl (by decide)
    (by intro k hk; simp at hk; subst hk; rfl)
    (by intro k hk; simp at hk; subst hk; rfl)).2
  exact h "b" rfl rfl rfl

/-- **C9** — When a URL-fetch or delete failure aborts `processForgotten`
mid-pass, the delete calls already issued are exactly those for the keys
reached earlier in the shuffled order whose processor returned `true`
(including, when the failure is the delete call itself, that very call). -/
theorem processForgotten_abort_deletes (env : Env ε) (seed : List Nat)
    (processor : String → String → Bool) (e : ε) (keys : List String)
    (url : String → String) (l₁ : List String) (key : String) (l₂ : List String)
    (hl : env.getForgottenList = Except.ok keys)
    (hshuf : fisherYattesShuffleInPlace seed keys = l₁ ++ key :: l₂)
    (hget : ∀ k ∈ l₁, env.getForgotten k = Except.ok (url k))
    (hdel : ∀ k ∈ l₁, env.deleteForgotten k = Except.ok k) :
    (env.getForgotten key = Except.error e →
      deletedKeys (processForgotten env seed processor).1 =
        l₁.filter (fun k => processor k (url k))) ∧
    (∀ u, env.getForgotten key = Except.ok u → processor key u = true →
      env.deleteForgotten key = Except.error e →
      deletedKeys (processForgotten env seed processor).1 =
        l₁.filter (fun k => processor k (url k)) ++ [key]) := by
  have hne : keys ≠ [] := by
    intro hk
    subst hk
    have h0 : fisherYattesShuffleInPlace seed ([] : List String) = [] := rfl
    rw [h0] at hshuf
    exact List.noConfusion (List.append_eq_nil.1 hshuf.symm).2
  have hmain := processForgotten_unfold env seed processor keys hl hne
  have happ := processLoop_append_ok env processor url l₁ (key :: l₂) 0 hget hdel
  have htrace : (processForgotten env seed processor).1 =
      Event.listFetch :: (okTrace url processor l₁ ++
        (processLoop env processor (key :: l₂)
          (0 + (l₁.filter (fun k => processor k (url k))).length)).1) := by
    rw [hmain]
    simp only [hshuf, happ]
  constructor
  · intro hfail
    rw [htrace, processLoop_cons_urlfail env processor key l₂ _ e hfail,
      deletedKeys_cons_append, deletedKeys_okTrace]
    simp [deletedKeys]
  · intro u hu hp hdfail
    rw [htrace, processLoop_cons_delfail env processor key l₂ _ u e hu hp hdfail,
      deletedKeys_cons_append, deletedKeys_okTrace]
    simp [deletedKeys]

/-- Each key occurrence contributes exactly one URL fetch to the
canonical trace. -/
theorem okTrace_count_urlFetch (url : String → String)
    (processor : String → String → Bool) (k : String) :
    ∀ l : List String,
      (okTrace url processor l).count (Event.urlFetch k) = l.count k
  | [] => by simp [okTrace]
  | a :: rest => by
    have ih := okTrace_count_urlFetch url processor k rest
    rw [okTrace_cons, List.count_append, ih]
    by_cases hak : a = k
    · subst hak
      by_cases hp : processor a (url a) <;>
        simp [itemTrace, hp, List.count_cons] <;> omega
    · by_cases hp : processor a (url a) <;>
        simp [itemTrace, hp, List.count_cons, hak, Ne.symm hak] <;> omega

/-- Each key occurrence contributes exactly one processor invocation to
the canonical trace. -/
theorem okTrace_count_procCall (url : String → String)
    (processor : String → String → Bool) (k : String) :
    ∀ l : List String,
      (okTrace url processor l).count (Event.procCall k (url k)) = l.count k
  | [] => by simp [okTrace]
  | a :: rest => by
    have ih := okTrace_count_procCall url processor k rest
    rw [okTrace_cons, List.count_append, ih]
    by_cases hak : a = k
    · subst hak
      by_cases hp : processor a (url a) <;>
        simp [itemTrace, hp, List.count_cons] <;> omega
    · by_cases hp : processor a (url a) <;>
        simp [itemTrace, hp, List.count_cons, hak, Ne.symm hak] <;> omega

/-- Each key occurrence the processor accepts contributes exactly one
delete call to the canonical trace; rejected keys contribute none. -/
theorem okTrace_count_deleteCall (url : String → String)
    (processor : String → String → Bool) (k : String) :
    ∀ l : List String,
      (okTrace url processor l).count (Event.deleteCall k) =
        if processor k (url k) then l.count k else 0
  | [] => by simp [okTrace]
  | a :: rest => by
    have ih := okTrace_count_deleteCall url processor k rest
    rw [okTrace_cons, List.count_append, ih]
    by_cases hak : a = k
    · subst hak
      by_cases hp : processor a (url a) <;>
        simp [itemTrace, hp, List.count_cons] <;> omega
    · by_cases hp : processor a (url a) <;>
        by_cases hpk : processor k (url k) <;>
        simp [itemTrace, hp, hpk, List.count_cons, hak, Ne.symm hak] <;> omega

/-- Under an all-success server, the full pass trace is the list fetch
followed by the canonical trace of the shuffled list. -/
theorem processForgotten_ok_trace (env : Env ε) (seed : List Nat)
    (processor : String → String → Bool) (keys : List String) (url : String → String)
    (hl : env.getForgottenList = Except.ok keys) (hne : keys ≠ [])
    (hget : ∀ k, env.getForgotten k = Except.ok (url k))
    (hdel : ∀ k, env.deleteForgotten k = Except.ok k) :
    (processForgotten env seed processor).1 =
      Event.listFetch ::
        okTrace url processor (fisherYattesShuffleInPlace seed keys) := by
  have hloop := processLoop_ok env processor url
    (fisherYattesShuffleInPlace seed keys) 0 (fun k _ => hget k) (fun k _ => hdel k)
  rw [processForgotten_unfold env seed processor keys hl hne, hloop]

/-- **C4** — Within one `processForgotten` call under an all-success
server, every key of the fetched list is visited once per occurrence and
never revisited: the trace holds as many URL fetches and processor
invocations for a key as the list holds occurrences of it (so exactly one
each when the list has no duplicates), regardless of the shuffled order. -/
theorem processForgotten_visits_once (env : Env ε) (seed : List Nat)
    (processor : String → String → Bool) (keys : List String) (url : String → String)
    (hl : env.getForgottenList = Except.ok keys)
    (hget : ∀ k, env.getForgotten k = Except.ok (url k))
    (hdel : ∀ k, env.deleteForgotten k = Except.ok k) :
    ∀ k : String,
      (processForgotten env seed processor).1.count (Event.urlFetch k) = keys.count k ∧
      (processForgotten env seed processor).1.count (Event.procCall k (url k)) =
        keys.count k ∧
      (keys.Nodup → k ∈ keys →
        (processForgotten env seed processor).1.count (Event.urlFetch k) = 1 ∧
        (processForgotten env seed processor).1.count (Event.procCall k (url k)) = 1) := by
  intro k
  by_cases hkeys : keys = []
  · subst hkeys
    have h0 : processForgotten env seed processor = ([Event.listFetch], Except.ok 0) := by
      simp [processForgotten, hl]
    refine ⟨?_, ?_, ?_⟩
    · rw [h0]
      simp [List.count_cons]
    · rw [h0]
      simp [List.count_cons]
    · intro _ hk
      exact absurd hk (by simp)
  · have htrace := processForgotten_ok_trace env seed processor keys url hl hkeys hget hdel
    have hcnt : (fisherYattesShuffleInPlace seed keys).count k = keys.count k :=
      (fisherYattes_perm seed keys).count_eq k
    have hurl : (processForgotten env seed processor).1.count (Event.urlFetch k) =
        keys.count k := by
      rw [htrace, List.count_cons, okTrace_count_urlFetch, hcnt]
      simp
    have hproc : (processForgotten env seed processor).1.count
        (Event.procCall k (url k)) = keys.count k := by
      rw [htrace, List.count_cons, okTrace_count_procCall, hcnt]
      simp
    refine ⟨hurl, hproc, fun hnd hk => ?_⟩
    have h1 : keys.count k = 1 := List.count_eq_one_of_mem hnd hk
    exact ⟨by rw [hurl, h1], by rw [hproc, h1]⟩

/-- Witness for C4 on the concrete healthy server at key `a`: one URL
fetch and one processor invocation. -/
theorem processForgotten_visits_once_witness :
    demoEnv.getForgottenList = Except.ok ["a", "b", "c"] ∧
    (processForgotten demoEnv [] demoProc).1.count (Event.urlFetch "a") = 1 ∧
    (processForgotten demoEnv [] demoProc).1.count (Event.procCall "a" (demoUrl "a")) = 1 := by
  have h := (processForgotten_visits_once demoEnv [] demoProc ["a", "b", "c"] demoUrl
    rfl (fun _ => rfl) (fun _ => rfl) "a").2.2 (by decide) (by decide)
  exact ⟨rfl, h.1, h.2⟩

/-- **C10** — When the server returns duplicate keys, `processForgotten`
processes each occurrence independently under an all-success server: URL
fetches, processor invocations and (for accepted keys) delete calls each
happen once per occurrence, and the returned count counts occurrences,
not distinct keys. -/
theorem processForgotten_duplicates (env : Env ε) (seed : List Nat)
    (processor : String → String → Bool) (keys : List String) (url : String → String)
    (hl : env.getForgottenList = Except.ok keys)
    (hget : ∀ k, env.getForgotten k = Except.ok (url k))
    (hdel : ∀ k, env.deleteForgotten k = Except.ok k) :
    (∀ k : String,
      (processForgotten env seed processor).1.count (Event.deleteCall k) =
        if processor k (url k) then keys.count k else 0) ∧
    (processForgotten env seed processor).2 =
      Except.ok ((keys.filter (fun k => processor k (url k))).length) := by
  by_cases hkeys : keys = []
  · subst hkeys
    have h0 : processForgotten env seed processor = ([Event.listFetch], Except.ok 0) := by
      simp [processForgotten, hl]
    refine ⟨fun k => ?_, ?_⟩
    · rw [h0]
      simp [List.count_cons]
    · rw [h0]
      simp
  · have htrace := processForgotten_ok_trace env seed processor keys url hl hkeys hget hdel
    have hloop := processLoop_ok env processor url
      (fisherYattesShuffleInPlace seed keys) 0 (fun k _ => hget k) (fun k _ => hdel k)
    refine ⟨fun k => ?_, ?_⟩
    · have hcnt : (fisherYattesShuffleInPlace seed keys).count k = keys.count k :=
        (fisherYattes_perm seed keys).count_eq k
      rw [htrace, List.count_cons, okTrace_count_deleteCall, hcnt]
      simp
    · have hres : (processForgotten env seed processor).2 =
          (processLoop env processor (fisherYattesShuffleInPlace seed keys) 0).2 := by
        rw [processForgotten_unfold env seed processor keys hl hkeys]
      rw [hres, hloop]
      have hlen : ((fisherYattesShuffleInPlace seed keys).filter
          (fun k => processor k (url k))).length =
          (keys.filter (fun k => processor k (url k))).length :=
        ((fisherYattes_perm seed keys).filter _).length_eq
      simp [hlen]

/-- Witness for C10 on the duplicate-key server: key `a` listed twice is
fetched and deleted twice and the count is 2. -/
theorem processForgotten_duplicates_witness :
    envDup.getForgottenList = Except.ok ["a", "a"] ∧
    (processForgotten envDup [] (fun _ _ => true)).1.count (Event.deleteCall "a") = 2 ∧
    (processForgotten envDup [] (fun _ _ => true)).2 = Except.ok 2 := by
  have h := processForgotten_duplicates envDup [] (fun _ _ => true) ["a", "a"]
    (fun k => k) rfl (fun _ => rfl) (fun _ => rfl)
  refine ⟨rfl, ?_, ?_⟩
  · have h1 := h.1 "a"
    simpa using h1
  · have h2 := h.2
    simpa using h2

/-- The last element of `a :: l` is the last element of `l` when `l` is
nonempty, and `a` otherwise. -/
theorem getLast?_cons_or (a : α) (l : List α) :
    (a :: l).getLast? = l.getLast?.or (some a) := by
  rw [List.getLast?_eq_head?_reverse, List.getLast?_eq_head?_reverse]
  have : (a :: l).reverse = l.reverse ++ [a] := by simp
  rw [this, List.head?_append]
  cases l.reverse.head? <;> simp [Option.or]

/-- The cached slot after folding a history of refresh outcomes over any
starting state: the last successful value of the history, or the starting
slot when the history holds no success. -/
theorem foldl_refresh_lastValue (ε : Type) :
    ∀ (outcomes : List (Except ε τ)) (s : PolledThingieValue τ),
      (outcomes.foldl PolledThingieValue.refresh s).lastValue =
        ((outcomes.filterMap Except.toOption).getLast?).or s.lastValue
  | [], s => by simp [Option.or]
  | o :: rest, s => by
    have ih := foldl_refresh_lastValue ε rest (PolledThingieValue.refresh s o)
    rw [List.foldl_cons, ih]
    cases o with
    | ok v =>
      have hstep : (PolledThingieValue.refresh s (Except.ok v : Except ε τ)).lastValue = some v := rfl
      rw [hstep]
      have hfm : (Except.ok v :: rest).filterMap (Except.toOption (ε := ε)) =
          v :: rest.filterMap Except.toOption := by
        simp [Except.toOption]
      rw [hfm, getLast?_cons_or]
      cases (rest.filterMap (Except.toOption (ε := ε))).getLast? <;> simp [Option.or]
    | error e =>
      have hstep : (PolledThingieValue.refresh s (Except.error e)).lastValue =
          s.lastValue := rfl
      rw [hstep]
      have hfm : (Except.error e :: rest).filterMap (Except.toOption (ε := ε)) =
          rest.filterMap Except.toOption := by
        simp [Except.toOption]
      rw [hfm]

/-- **C7** — For the polled licence cache: before any successful refresh
(the empty history, or any history whose refreshes all failed),
`latest()` — exposed as `getLatestLicence()` — returns the absent marker;
after at least one success it returns the most recently successfully
produced value (the last success of the history) even if later refreshes
fail; a failing producer never clears or replaces a cached value. -/
theorem getLatestLicence_spec (τ ε : Type) (outcomes : List (Except ε τ)) :
    getLatestLicence (PolledThingieValue.run ([] : List (Except ε τ))) = none ∧
    getLatestLicence (PolledThingieValue.run outcomes) =
      (outcomes.filterMap Except.toOption).getLast? ∧
    (outcomes.filterMap Except.toOption = [] →
      getLatestLicence (PolledThingieValue.run outcomes) = none) ∧
    (∀ (s : PolledThingieValue τ) (e : ε),
      (s.refresh (Except.error e)).latest = s.latest) ∧
    (∀ (s : PolledThingieValue τ) (v : τ),
      (s.refresh (Except.ok v : Except ε τ)).latest = some v) := by
  have hmain : getLatestLicence (PolledThingieValue.run outcomes) =
      (outcomes.filterMap Except.toOption).getLast? := by
    show (outcomes.foldl PolledThingieValue.refresh (PolledThingieValue.initial τ)).lastValue
      = (outcomes.filterMap Except.toOption).getLast?
    rw [foldl_refresh_lastValue ε outcomes (PolledThingieValue.initial τ)]
    have : (PolledThingieValue.initial τ).lastValue = none := rfl
    rw [this]
    cases (outcomes.filterMap (Except.toOption (ε := ε))).getLast? <;> simp [Option.or]
  refine ⟨rfl, hmain, ?_, fun s e => rfl, fun s v => rfl⟩
  intro hall
  rw [hmain, hall]
  rfl

/-- Witness for C7 on a concrete history: a failure, a success producing
5, then another failure — the cache reads 5, and the empty history reads
absent. -/
theorem getLatestLicence_spec_witness :
    getLatestLicence (PolledThingieValue.run ([] : List (Except Unit Nat))) = none ∧
    getLatestLicence (PolledThingieValue.run
      [Except.error (), Except.ok 5, Except.error ()]) = some (5 : Nat) := by
  have h := getLatestLicence_spec Nat Unit [Except.error (), Except.ok 5, Except.error ()]
  exact ⟨h.1, by rw [h.2.1]; rfl⟩

/-- `pickOut` preserves the number of remaining elements. -/
theorem pickOut_length (j : Nat) (x : α) (rest : List α) :
    (pickOut j x rest).2.length = rest.length := by
  unfold pickOut
  split <;> simp

/-- The element `pickOut` brings to the front is the element of
`x :: rest` at the drawn index. -/
theorem pickOut_fst (j : Nat) (x : α) (rest : List α) :
    (pickOut j x rest).1 = (x :: rest).getD j x := by
  unfold pickOut
  split
  · next h =>
    subst h
    rfl
  · next h =>
    cases j with
    | zero => exact absurd rfl h
    | succ i => simp [List.getD]

/-- Unfolding: one Fisher-Yates step on a nonempty list. -/
theorem fyShuffleAux_cons (fuel : Nat) (seed : List Nat) (x : α) (rest : List α) :
    fyShuffleAux (fuel + 1) seed (x :: rest) =
      (pickOut (seed.headD 0 % (rest.length + 1)) x rest).1 ::
        fyShuffleAux fuel seed.tail
          (pickOut (seed.headD 0 % (rest.length + 1)) x rest).2 := rfl

/-- Over a duplicate-free list, every reordering is reached by exactly one
canonical Fisher-Yates seed: the map from canonical seeds to orderings is
a bijection, so a uniform draw of the seed makes every permutation of the
list equally likely. -/
theorem fy_existsUnique {α : Type} [DecidableEq α] :
    ∀ (n : Nat) (l l' : List α), l.length = n → l.Nodup → List.Perm l' l →
      ∃! seed, seedOK seed n ∧ fyShuffleAux n seed l = l'
  | 0, l, l', hlen, _, hperm => by
    have hl : l = [] := List.length_eq_zero.1 hlen
    subst hl
    have hl' : l' = [] := hperm.eq_nil
    subst hl'
    refine ⟨[], ⟨⟨rfl, ?_⟩, rfl⟩, ?_⟩
    · intro i hi
      simp at hi
    · rintro seed ⟨⟨hlen0, _⟩, _⟩
      exact List.length_eq_zero.1 hlen0
  | n + 1, l, l', hlen, hnd, hperm => by
    cases l with
    | nil => simp at hlen
    | cons x rest =>
    cases l' with
    | nil =>
      have h0 := hperm.length_eq
      simp at h0
    | cons y rest' =>
    have hrest_len : rest.length = n := by simpa using hlen
    have hy_mem : y ∈ x :: rest := hperm.subset (List.mem_cons_self y rest')
    set j := List.indexOf y (x :: rest) with hj_def
    have hj_lt : j < (x :: rest).length := List.indexOf_lt_length.2 hy_mem
    have hj_lt' : j < rest.length + 1 := by simpa using hj_lt
    have hj_n : j < n + 1 := by omega
    have hfst : (pickOut j x rest).1 = y := by
      rw [pickOut_fst, List.getD_eq_getElem _ _ hj_lt]
      exact List.getElem_indexOf hj_lt
    have hstep : List.Perm (x :: rest)
        ((pickOut j x rest).1 :: (pickOut j x rest).2) :=
      pickOut_perm x rest j hj_lt'
    rw [hfst] at hstep
    have ht_len : (pickOut j x rest).2.length = n := by
      rw [pickOut_length]
      exact hrest_len
    have hyt_nodup : (y :: (pickOut j x rest).2).Nodup := hstep.nodup_iff.1 hnd
    have ht_nodup : (pickOut j x rest).2.Nodup := (List.nodup_cons.1 hyt_nodup).2
    have htail_perm : List.Perm rest' (pickOut j x rest).2 :=
      List.Perm.cons_inv (hperm.trans hstep)
    obtain ⟨s', ⟨hs'OK, hs'eq⟩, hs'uniq⟩ :=
      fy_existsUnique n (pickOut j x rest).2 rest' ht_len ht_nodup htail_perm
    refine ⟨j :: s', ⟨⟨?_, ?_⟩, ?_⟩, ?_⟩
    · simp [hs'OK.1]
    · intro i hi
      cases i with
      | zero => simpa using hj_n
      | succ i' =>
        have hi' : i' ∈ List.range n := by
          rw [List.mem_range] at hi ⊢
          omega
        have hb := hs'OK.2 i' hi'
        simpa [List.getD, Nat.succ_sub_succ] using hb
    · rw [fyShuffleAux_cons]
      simp only [List.headD_cons, List.tail_cons]
      rw [Nat.mod_eq_of_lt hj_lt', hfst, hs'eq]
    · rintro seed ⟨⟨hlen₂, hbound₂⟩, heq₂⟩
      cases seed with
      | nil => simp at hlen₂
      | cons j₂ s₂ =>
      have hj₂_bound : j₂ < n + 1 := by
        have hb := hbound₂ 0 (List.mem_range.2 (Nat.succ_pos n))
        simpa using hb
      have hj₂_lt' : j₂ < rest.length + 1 := by omega
      rw [fyShuffleAux_cons] at heq₂
      simp only [List.headD_cons, List.tail_cons, Nat.mod_eq_of_lt hj₂_lt'] at heq₂
      injection heq₂ with hhead htail
      have hj₂_lt_len : j₂ < (x :: rest).length := by simpa using hj₂_lt'
      have hj₂_eq : j₂ = j := by
        rw [pickOut_fst, List.getD_eq_getElem _ _ hj₂_lt_len] at hhead
        have hgj : (x :: rest)[j] = y := List.getElem_indexOf hj_lt
        have hget : (x :: rest).get ⟨j₂, hj₂_lt_len⟩ = (x :: rest).get ⟨j, hj_lt⟩ := by
          simpa [List.get_eq_getElem] using hhead.trans hgj.symm
        have hfin := hnd.get_inj_iff.1 hget
        exact congrArg Fin.val hfin
      subst hj₂_eq
      have hs₂OK : seedOK s₂ n := by
        refine ⟨by simpa using hlen₂, ?_⟩
        intro i hi
        have hi1 : (i + 1) ∈ List.range (n + 1) := by
          rw [List.mem_range] at hi ⊢
          omega
        have hb := hbound₂ (i + 1) hi1
        simpa [List.getD, Nat.succ_sub_succ] using hb
      rw [hs'uniq s₂ ⟨hs₂OK, htail⟩]

/-- **C6** — Before processing, `processForgotten` shuffles the fetched
key list: viewing the random draws as an input seed, the shuffled
sequence is always exactly a permutation of the fetched list, and (over a
duplicate-free list) every permutation is produced by exactly one
canonical seed — with the seed drawn uniformly, every permutation is
produced with equal probability. -/
theorem fisherYattes_uniform {α : Type} [DecidableEq α] (l l' : List α)
    (hnd : l.Nodup) (hperm : List.Perm l' l) :
    (∀ seed : List Nat, List.Perm (fisherYattesShuffleInPlace seed l) l) ∧
    ∃! seed, seedOK seed l.length ∧ fisherYattesShuffleInPlace seed l = l' :=
  ⟨fun seed => fisherYattes_perm seed l,
   fy_existsUnique l.length l l' rfl hnd hperm⟩

/-- Witness for C6 at the concrete list `[a, b, c]` and target ordering
`[b, c, a]`. -/
theorem fisherYattes_uniform_witness :
    (["a", "b", "c"] : List String).Nodup ∧
    List.Perm ["b", "c", "a"] ["a", "b", "c"] ∧
    ((∀ seed : List Nat,
        List.Perm (fisherYattesShuffleInPlace seed ["a", "b", "c"]) ["a", "b", "c"]) ∧
      ∃! seed, seedOK seed (["a", "b", "c"] : List String).length ∧
        fisherYattesShuffleInPlace seed ["a", "b", "c"] = ["b", "c", "a"]) :=
  ⟨by decide, by decide,
   fisherYattes_uniform ["a", "b", "c"] ["b", "c", "a"] (by decide) (by decide)⟩

/-- Witness for C9 on `envDelFail`: processing `a` then `b` with an
always-accepting processor, the delete of `b` fails and the issued delete
calls are exactly `a` then `b`. -/
theorem processForgotten_abort_deletes_witness :
    envDelFail.getForgottenList = Except.ok ["a", "b"] ∧
    fisherYattesShuffleInPlace [] ["a", "b"] = ["a"] ++ "b" :: [] ∧
    deletedKeys (processForgotten envDelFail [] (fun _ _ => true)).1 = ["a", "b"] := by
  refine ⟨rfl, by decide, ?_⟩
  have h := (processForgotten_abort_deletes envDelFail [] (fun _ _ => true) ()
    ["a", "b"] (fun k => k) ["a"] "b" [] rfl (by decide)
    (by intro k hk; simp at hk; subst hk; rfl)
    (by intro k hk; simp at hk; subst hk; rfl)).2
  have h2 := h "b" rfl rfl rfl
  simpa using h2

end OnlyOffice
